import Mathlib

/-!
# MutantSim: a verification development

Shallow embedding, over exact rational arithmetic, of the MutantSim core
(`src/mutantsim/genetics.py`, `src/mutantsim/model.py`,
`src/mutantsim/analytics.py`), together with proofs of the specified
properties.  Python floats are modelled by `ℚ`; numpy 4×4 matrices by
functions `Nuc → Nuc → ℚ`; fallible code by `Except`.
-/

/-- The four RNA nucleotides, in the canonical order A, C, G, U
(`BASES = "ACGU"` in `model.py`). -/
inductive Nuc : Type
  | A | C | G | U
deriving DecidableEq, Repr, Fintype

open Nuc

/-- Amino-acid symbols appearing in `CODON_TO_AA` in `genetics.py`;
`stop` is the `"*"` marker. -/
inductive AA : Type
  | F | L | I | M | V | S | P | T | A | Y | H | Q | N | K | D | E
  | C | W | R | G | stop
deriving DecidableEq, Repr

/-- A codon: an ordered triple of nucleotides (a length-3 string over ACGU
in the Python source). -/
abbrev Codon : Type := Nuc × Nuc × Nuc

/-- The codon table `CODON_TO_AA` of `genetics.py`, as a total function on
the 64 codons (the Python dict has exactly one entry per codon, so
`CODON_TO_AA.get` never misses on a genuine codon). -/
def CODON_TO_AA : Codon → AA
  | (U,U,U) => .F | (U,U,C) => .F
  | (U,U,A) => .L | (U,U,G) => .L | (C,U,U) => .L | (C,U,C) => .L
  | (C,U,A) => .L | (C,U,G) => .L
  | (A,U,U) => .I | (A,U,C) => .I | (A,U,A) => .I
  | (A,U,G) => .M
  | (G,U,U) => .V | (G,U,C) => .V | (G,U,A) => .V | (G,U,G) => .V
  | (U,C,U) => .S | (U,C,C) => .S | (U,C,A) => .S | (U,C,G) => .S
  | (A,G,U) => .S | (A,G,C) => .S
  | (C,C,U) => .P | (C,C,C) => .P | (C,C,A) => .P | (C,C,G) => .P
  | (A,C,U) => .T | (A,C,C) => .T | (A,C,A) => .T | (A,C,G) => .T
  | (G,C,U) => .A | (G,C,C) => .A | (G,C,A) => .A | (G,C,G) => .A
  | (U,A,U) => .Y | (U,A,C) => .Y
  | (C,A,U) => .H | (C,A,C) => .H
  | (C,A,A) => .Q | (C,A,G) => .Q
  | (A,A,U) => .N | (A,A,C) => .N
  | (A,A,A) => .K | (A,A,G) => .K
  | (G,A,U) => .D | (G,A,C) => .D
  | (G,A,A) => .E | (G,A,G) => .E
  | (U,G,U) => .C | (U,G,C) => .C
  | (U,G,G) => .W
  | (C,G,U) => .R | (C,G,C) => .R | (C,G,A) => .R | (C,G,G) => .R
  | (A,G,A) => .R | (A,G,G) => .R
  | (G,G,U) => .G | (G,G,C) => .G | (G,G,A) => .G | (G,G,G) => .G
  | (U,A,A) => .stop | (U,A,G) => .stop | (U,G,A) => .stop

/-- Character normalization step of `clean_mrna`: uppercase, map T to U,
keep only A/C/G/U.  (Python: `seq.strip().upper().replace("T","U")`
followed by a filter on membership in `"ACGU"`; the strip only removes
characters the filter would drop anyway.) -/
def charToNuc : Char → Option Nuc
  | 'A' => some A | 'a' => some A
  | 'C' => some C | 'c' => some C
  | 'G' => some G | 'g' => some G
  | 'U' => some U | 'u' => some U
  | 'T' => some U | 't' => some U
  | _ => none

/-- `clean_mrna` of `genetics.py`, on a string given as a list of
characters. -/
def clean_mrna (seq : List Char) : List Nuc :=
  seq.filterMap charToNuc

/-- Embedding of Python's `s.find("AUG")` followed by slicing from the
found index: returns the suffix of `l` starting at the first occurrence
of the pattern A,U,G, or `none` when there is no occurrence. -/
def findStart : List Nuc → Option (List Nuc)
  | [] => none
  | c :: rest =>
    if (c :: rest).take 3 = [A, U, G] then some (c :: rest)
    else findStart rest

/-- The codon-collecting loop of `codons_in_cds`:
`for i in range(start, len(s)-2, 3)` takes a full triplet each pass,
stops (excluding the triplet) at a stop codon, and ends when fewer than
3 nucleotides remain. -/
def takeCodons : List Nuc → List Codon
  | a :: b :: c :: rest =>
    if CODON_TO_AA (a, b, c) = AA.stop then []
    else (a, b, c) :: takeCodons rest
  | _ => []

/-- `codons_in_cds` of `analytics.py`. -/
def codons_in_cds (seq : List Char) : List Codon :=
  match findStart (clean_mrna seq) with
  | none => []
  | some t => takeCodons t

/-! ## Specification-side definitions for the CDS extractor (claim C4) -/

/-- The pattern A,U,G occurs in `l` at position `i`. -/
def isStartAt (l : List Nuc) (i : ℕ) : Prop :=
  (l.drop i).take 3 = [A, U, G]

instance (l : List Nuc) (i : ℕ) : Decidable (isStartAt l i) := by
  unfold isStartAt; infer_instance

instance (l : List Nuc) : Decidable (∃ i, isStartAt l i) :=
  decidable_of_iff (∃ i, i < l.length ∧ isStartAt l i)
    ⟨fun ⟨i, _, h⟩ => ⟨i, h⟩, fun ⟨i, h⟩ => ⟨i, by
      by_contra hc
      push_neg at hc
      unfold isStartAt at h
      rw [List.drop_eq_nil_of_le hc] at h
      simp at h, h⟩⟩

/-- Successive length-3 triplets of a nucleotide list; a trailing group of
fewer than 3 nucleotides is dropped.  (Spec-side formulation.) -/
def chunks3 : List Nuc → List Codon
  | a :: b :: c :: rest => (a, b, c) :: chunks3 rest
  | _ => []

/-- Spec-side CDS: the successive triplets starting at the first
occurrence of A,U,G, truncated before the first stop codon and before any
trailing group of fewer than 3 nucleotides; empty when there is no
occurrence of A,U,G. -/
def specCDS (seq : List Char) : List Codon :=
  let t := clean_mrna seq
  if h : ∃ i, isStartAt t i then
    (chunks3 (t.drop (Nat.find h))).takeWhile (fun c => !(CODON_TO_AA c = AA.stop : Bool))
  else []

/-! ## Substitution matrix engine (`model.py`) -/

/-- A 4×4 matrix over the nucleotides (numpy array with the canonical
index map `IDX`). -/
abbrev Mat : Type := Nuc → Nuc → ℚ

/-- Sum of a rational quantity over the four nucleotides in canonical
order (a row sum / inner product dimension of the numpy arrays). -/
def sumNuc (f : Nuc → ℚ) : ℚ := f A + f C + f G + f U

/-- Row `i` sum of a matrix. -/
def rowSum (M : Mat) (i : Nuc) : ℚ := sumNuc (M i)

/-- Matrix product (numpy `@` / `matrix_power` step). -/
def matMul (P Q : Mat) : Mat := fun i j => sumNuc (fun k => P i k * Q k j)

/-- The 4×4 identity matrix (`np.eye(4)`). -/
def matId : Mat := fun i j => if i = j then 1 else 0

/-- Iterated matrix product; `np.linalg.matrix_power` computes this value
(it uses binary exponentiation, which agrees with the iterated product in
exact arithmetic). -/
def matPowNat (M : Mat) : ℕ → Mat
  | 0 => matId
  | n + 1 => matMul (matPowNat M n) M

/-- `matrix_power_per_round` of `model.py`: raises `ValueError` for
negative rounds, returns `np.eye(4)` for 0 rounds, else `M^rounds`. -/
def matrix_power_per_round (M : Mat) (rounds : ℤ) : Except String Mat :=
  if rounds < 0 then .error "rounds must be >= 0"
  else if rounds = 0 then .ok matId
  else .ok (matPowNat M rounds.toNat)

/-- The row-sum condition checked by `load_bias_matrix_csv`
(`np.allclose(M.sum(axis=1), 1.0, atol=1e-6)`): every row sums to 1
within absolute tolerance 1e-6.  Shape (4×4) and header order are
enforced by the `Mat` type itself. -/
def validRowSums (M : Mat) : Prop :=
  ∀ i, |rowSum M i - 1| ≤ 1 / 1000000

instance (M : Mat) : Decidable (validRowSums M) := by
  unfold validRowSums; infer_instance

/-! ## Codon mutation probability calculator (`analytics.py`) -/

/-- The four nucleotides as a list, canonical order. -/
def allNucs : List Nuc := [A, C, G, U]

/-- All 64 codons.  `prob_same_amino_acid` and `prob_becomes_stop` sum
over the entries of the Python dict `CODON_TO_AA`; rational addition is
commutative and associative, so the exact value does not depend on the
dict's iteration order and we sum over this list instead. -/
def allCodons : List Codon :=
  allNucs.flatMap (fun a => allNucs.flatMap (fun b => allNucs.map (fun c => (a, b, c))))

/-- `codon_prob_to_codon` of `analytics.py`: probability that `orig`
becomes `tgt`, as the product of per-position entries of `TR`. -/
def codon_prob_to_codon (orig tgt : Codon) (TR : Mat) : ℚ :=
  TR orig.1 tgt.1 * TR orig.2.1 tgt.2.1 * TR orig.2.2 tgt.2.2

/-- `prob_same_amino_acid` of `analytics.py`: probability that
`orig_codon` ends up encoding the same amino acid; 0 for a stop codon.
(The Python `if not aa` branch is unreachable: the dict is total on
codons.) -/
def prob_same_amino_acid (orig : Codon) (TR : Mat) : ℚ :=
  if CODON_TO_AA orig = AA.stop then 0
  else ((allCodons.filter (fun t => CODON_TO_AA t = CODON_TO_AA orig)).map
    (fun t => codon_prob_to_codon orig t TR)).sum

/-- `prob_becomes_stop` of `analytics.py`: probability that `orig` becomes
any of the three stop codons. -/
def prob_becomes_stop (orig : Codon) (TR : Mat) : ℚ :=
  ((allCodons.filter (fun t => CODON_TO_AA t = AA.stop)).map
    (fun t => codon_prob_to_codon orig t TR)).sum

/-! ## Poisson-binomial aggregator (`analytics.py`) -/

/-- Tail of the in-place numpy update
`pmf[1:] = pmf[1:] * (1.0 - qi) + pmf[:-1] * qi`: numpy evaluates the
right-hand side from the OLD vector, so each new entry combines the old
entry and the old previous entry (`prev` threads the old values). -/
def stepAux (x prev : ℚ) : List ℚ → List ℚ
  | [] => []
  | p :: ps => (p * (1 - x) + prev * x) :: stepAux x p ps

/-- One DP round of `poisson_binomial_pmf`: the numpy pair of updates
`pmf[1:] = pmf[1:]*(1-qi) + pmf[:-1]*qi; pmf[0] = pmf[0]*(1-qi)`. -/
def stepPB (x : ℚ) : List ℚ → List ℚ
  | [] => []
  | p :: ps => p * (1 - x) :: stepAux x p ps

/-- `poisson_binomial_pmf` of `analytics.py`: start from a point mass at
0 in a length-(n+1) vector, fold the DP update over `q`, then
renormalize by the total when it is positive. -/
def poisson_binomial_pmf (q : List ℚ) : List ℚ :=
  let pmf0 : List ℚ := 1 :: List.replicate q.length 0
  let pmf := q.foldl (fun v qi => stepPB qi v) pmf0
  let s := pmf.sum
  if 0 < s then pmf.map (fun p => p / s) else pmf

/-! ## Specification-side definitions for the aggregator (claims C1, C10) -/

/-- The claimed exact Poisson-binomial probability of exactly `k`
successes among independent Bernoulli trials with success probabilities
`q`: the sum over all `k`-element subsets `S` of the index set of
`Π_{i∈S} q_i · Π_{i∉S} (1 - q_i)`. -/
def pbProb (q : List ℚ) (k : ℕ) : ℚ :=
  ∑ S ∈ (Finset.range q.length).powersetCard k,
    (∏ i ∈ S, q.getD i 0) * ∏ i ∈ Finset.range q.length \ S, (1 - q.getD i 0)

/-- The vector of exact Poisson-binomial probabilities for 0..n
successes. -/
def pbVec (q : List ℚ) : List ℚ :=
  (List.range (q.length + 1)).map (pbProb q)

/-! ## Summary/ROI module (`analytics.py`) -/

/-- ROI start codon index as computed by `summarize`:
`a_nt = max(1, a); start_c = (a_nt - 1) // 3` (Python floor division). -/
def roiStartC (a : ℤ) : ℤ := (max 1 a - 1).fdiv 3

/-- ROI end codon index as computed by `summarize`:
`b_nt = max(a_nt, b); end_c = min(b_nt // 3, n - 1)`. -/
def roiEndC (a b : ℤ) (n : ℕ) : ℤ := min ((max (max 1 a) b).fdiv 3) ((n : ℤ) - 1)

/-- The dictionary returned by `summarize`. -/
structure Summary where
  n_codons : ℕ
  p_unchanged_protein : ℚ
  pmf_k_nonsilent : List ℚ
  p_premature_stop : ℚ
  roi : Option ((ℤ × ℤ) × ℚ)
deriving Repr, DecidableEq

/-- `summarize` of `analytics.py`.  A present `roi_nt` is a 2-tuple, which
is always truthy in Python, so `if roi_nt:` is a presence test.  In the
taken branch `start_c ≥ 0` and `start_c ≤ end_c ≤ n - 1`, so the Python
slice `q[start_c:end_c+1]` is `drop start_c` then `take (end_c+1-start_c)`. -/
def summarize (seq : List Char) (TR : Mat) (roi_nt : Option (ℤ × ℤ)) : Summary :=
  let cods := codons_in_cds seq
  let n := cods.length
  let p_same := cods.map (fun c => prob_same_amino_acid c TR)
  let q := p_same.map (fun p => 1 - p)
  let p_unchanged := (q.map (fun qi => 1 - qi)).prod
  let pmf := poisson_binomial_pmf q
  let stop_probs := cods.map (fun c => prob_becomes_stop c TR)
  let p_premature_stop := 1 - (stop_probs.map (fun s => 1 - s)).prod
  let roi :=
    match roi_nt with
    | none => none
    | some (a, b) =>
      let start_c := roiStartC a
      let end_c := roiEndC a b n
      let p_roi_any :=
        if end_c ≥ start_c then
          let sub := (q.drop start_c.toNat).take (end_c + 1 - start_c).toNat
          1 - (sub.map (fun qi => 1 - qi)).prod
        else 0
      some ((start_c, end_c), p_roi_any)
  { n_codons := n
    p_unchanged_protein := p_unchanged
    pmf_k_nonsilent := pmf
    p_premature_stop := p_premature_stop
    roi := roi }

/-- The matrix used to refute claim C6: every row sums to 1 exactly (so it
passes the `load_bias_matrix_csv` row-sum check), but the A-row has a
negative entry. -/
def M6 : Mat := fun i j =>
  match i, j with
  | A, A => 2
  | A, C => -1
  | A, G => 0
  | A, U => 0
  | i, j => if i = j then 1 else 0

/-! ## Lemmas on the substitution matrix engine -/

lemma rowSum_matId (i : Nuc) : rowSum matId i = 1 := by
  cases i <;> simp [rowSum, matId, sumNuc]

lemma rowSum_matMul (P Q : Mat) (hQ : ∀ k, rowSum Q k = 1) (i : Nuc) :
    rowSum (matMul P Q) i = rowSum P i := by
  have hA := hQ A
  have hC := hQ C
  have hG := hQ G
  have hU := hQ U
  simp only [rowSum, sumNuc, matMul] at *
  linear_combination P i A * hA + P i C * hC + P i G * hG + P i U * hU

lemma rowSum_matPowNat (M : Mat) (hM : ∀ k, rowSum M k = 1) (n : ℕ) (i : Nuc) :
    rowSum (matPowNat M n) i = 1 := by
  induction n with
  | zero => exact rowSum_matId i
  | succ n ih =>
    rw [matPowNat, rowSum_matMul _ _ hM i]
    exact ih

/-- C2 — For every 4×4 matrix `M` whose rows each sum to 1 and every
integer `R ≥ 0`, `matrix_power_per_round M R` succeeds and every row of
the returned matrix also sums to 1, exactly, in the exact rational
arithmetic of this embedding (hence a fortiori within the spec's 1e-6
tolerance), for arbitrary `R` including values in the hundreds. -/
theorem C2_matrix_power_rows_sum_one (M : Mat) (R : ℤ) (N : Mat)
    (hM : ∀ k, rowSum M k = 1) (hR : 0 ≤ R)
    (hN : matrix_power_per_round M R = .ok N) (i : Nuc) :
    rowSum N i = 1 := by
  unfold matrix_power_per_round at hN
  rw [if_neg (by omega)] at hN
  by_cases h0 : R = 0
  · rw [if_pos h0] at hN
    cases hN
    exact rowSum_matId i
  · rw [if_neg h0] at hN
    cases hN
    exact rowSum_matPowNat M hM R.toNat i

/-- Witness for C2: the identity matrix raised to 300 rounds still has
row A summing to 1. -/
theorem C2_witness : rowSum (matPowNat matId 300) Nuc.A = 1 :=
  C2_matrix_power_rows_sum_one matId 300 (matPowNat matId 300)
    rowSum_matId (by decide) rfl Nuc.A

/-- C9 — `matrix_power_per_round M R` fails (with the `ValueError` of the
source) exactly when `R < 0`, and returns a matrix normally exactly when
`R ≥ 0`. -/
theorem C9_matrix_power_error_iff (M : Mat) (R : ℤ) :
    ((∃ e, matrix_power_per_round M R = Except.error e) ↔ R < 0)
    ∧ ((∃ N, matrix_power_per_round M R = Except.ok N) ↔ 0 ≤ R) := by
  unfold matrix_power_per_round
  by_cases h : R < 0
  · rw [if_pos h]
    constructor
    · exact ⟨fun _ => h, fun _ => ⟨_, rfl⟩⟩
    · constructor
      · rintro ⟨N, hN⟩
        cases hN
      · intro h'
        exact absurd h (not_lt.mpr h')
  · rw [if_neg h]
    have hok : ∀ X : Mat,
        ((∃ e, (Except.ok X : Except String Mat) = Except.error e) ↔ R < 0)
        ∧ ((∃ N, (Except.ok X : Except String Mat) = Except.ok N) ↔ 0 ≤ R) := by
      intro X
      constructor
      · constructor
        · rintro ⟨e, he⟩
          cases he
        · intro h'
          exact absurd h' h
      · exact ⟨fun _ => not_lt.mp h, fun _ => ⟨X, rfl⟩⟩
    by_cases h0 : R = 0
    · rw [if_pos h0]
      exact hok matId
    · rw [if_neg h0]
      exact hok (matPowNat M R.toNat)

/-! ## Lemmas on the CDS extractor -/

/-- `findStart` returns the suffix at the least start-codon position. -/
lemma findStart_eq (l : List Nuc) :
    findStart l = if h : ∃ i, isStartAt l i then some (l.drop (Nat.find h)) else none := by
  induction l with
  | nil =>
    rw [dif_neg]
    · rfl
    · rintro ⟨i, hi⟩
      simp [isStartAt] at hi
  | cons c rest ih =>
    by_cases h0 : isStartAt (c :: rest) 0
    · have hex : ∃ i, isStartAt (c :: rest) i := ⟨0, h0⟩
      rw [dif_pos hex, (Nat.find_eq_zero hex).mpr h0]
      have h0' : (c :: rest).take 3 = [A, U, G] := by
        simpa [isStartAt] using h0
      unfold findStart
      rw [if_pos h0']
      rfl
    · have h0' : ¬((c :: rest).take 3 = [A, U, G]) := by
        simpa [isStartAt] using h0
      unfold findStart
      rw [if_neg h0', ih]
      by_cases hrest : ∃ j, isStartAt rest j
      · have hex : ∃ i, isStartAt (c :: rest) i := by
          obtain ⟨j, hj⟩ := hrest
          exact ⟨j + 1, hj⟩
        rw [dif_pos hrest, dif_pos hex]
        have hfind : Nat.find hex = Nat.find hrest + 1 := by
          rw [Nat.find_eq_iff]
          constructor
          · exact Nat.find_spec hrest
          · intro n hn
            match n with
            | 0 => exact h0
            | m + 1 =>
              intro hm
              exact Nat.find_min hrest (by omega) hm
        rw [hfind]
        rfl
      · have hnone : ¬∃ i, isStartAt (c :: rest) i := by
          rintro ⟨i, hi⟩
          match i with
          | 0 => exact h0 hi
          | j + 1 => exact hrest ⟨j, hi⟩
        rw [dif_neg hrest, dif_neg hnone]

/-- The source loop equals the spec-side formulation: chunk into exact
triplets, then truncate at the first stop codon. -/
theorem takeCodons_eq (l : List Nuc) :
    takeCodons l
      = (chunks3 l).takeWhile (fun c => !(CODON_TO_AA c = AA.stop : Bool)) := by
  match l with
  | [] => rfl
  | [_] => rfl
  | [_, _] => rfl
  | a :: b :: c :: rest =>
    by_cases hs : CODON_TO_AA (a, b, c) = AA.stop
    · simp [takeCodons, chunks3, List.takeWhile_cons, hs]
    · simp [takeCodons, chunks3, List.takeWhile_cons, hs, takeCodons_eq rest]

/-- No codon produced by the source loop is a stop codon. -/
theorem takeCodons_no_stop (l : List Nuc) :
    ∀ c ∈ takeCodons l, CODON_TO_AA c ≠ AA.stop := by
  match l with
  | [] => intro c hc; cases hc
  | [_] => intro c hc; cases hc
  | [_, _] => intro c hc; cases hc
  | a :: b :: c :: rest =>
    intro d hd
    by_cases hs : CODON_TO_AA (a, b, c) = AA.stop
    · rw [takeCodons, if_pos hs] at hd
      cases hd
    · rw [takeCodons, if_neg hs] at hd
      rcases List.mem_cons.mp hd with h | h
      · rwa [h]
      · exact takeCodons_no_stop rest d h

/-- C4 — `codons_in_cds` returns `[]` when the normalized sequence has no
occurrence of A,U,G; otherwise it returns the successive length-3
triplets from the first occurrence, truncated before the first stop codon
and before any trailing group of fewer than 3 nucleotides (`specCDS`);
and no returned codon is a stop codon.  (Each returned codon is a
`Codon`, i.e. a nucleotide triple, so having length 3 and being in the
codon table hold by construction.) -/
theorem C4_codons_in_cds_spec (seq : List Char) :
    ((¬ ∃ i, isStartAt (clean_mrna seq) i) → codons_in_cds seq = [])
    ∧ codons_in_cds seq = specCDS seq
    ∧ ∀ c ∈ codons_in_cds seq, CODON_TO_AA c ≠ AA.stop := by
  refine ⟨?_, ?_, ?_⟩
  · intro h
    unfold codons_in_cds
    rw [findStart_eq, dif_neg h]
  · unfold codons_in_cds specCDS
    rw [findStart_eq]
    by_cases h : ∃ i, isStartAt (clean_mrna seq) i
    · rw [dif_pos h, dif_pos h]
      exact takeCodons_eq _
    · rw [dif_neg h, dif_neg h]
  · intro c hc
    unfold codons_in_cds at hc
    rcases hfs : findStart (clean_mrna seq) with _ | t
    · rw [hfs] at hc
      cases hc
    · rw [hfs] at hc
      exact takeCodons_no_stop t c hc

/-- Witness for C4: a sequence with no start codon yields the empty CDS,
and a codon of a nonempty CDS is not a stop codon. -/
theorem C4_witness :
    codons_in_cds "CCC".data = [] ∧ CODON_TO_AA (A, U, G) ≠ AA.stop :=
  ⟨(C4_codons_in_cds_spec "CCC".data).1 (by decide),
   (C4_codons_in_cds_spec "AUGGCAUAA".data).2.2 (A, U, G) (by decide)⟩

/-! ## Lemmas on the Poisson-binomial aggregator -/

lemma pbProb_nil_zero : pbProb [] 0 = 1 := by
  simp [pbProb]

lemma pbProb_of_gt {q : List ℚ} {k : ℕ} (h : q.length < k) : pbProb q k = 0 := by
  unfold pbProb
  rw [Finset.powersetCard_eq_empty.mpr (by simpa using h), Finset.sum_empty]

lemma pbProb_append_zero (q : List ℚ) (x : ℚ) :
    pbProb (q ++ [x]) 0 = pbProb q 0 * (1 - x) := by
  unfold pbProb
  rw [Finset.powersetCard_zero, Finset.powersetCard_zero, Finset.sum_singleton,
    Finset.sum_singleton]
  simp only [Finset.prod_empty, Finset.sdiff_empty, one_mul, List.length_append,
    List.length_singleton]
  rw [Finset.prod_range_succ, List.getD_append_right q [x] 0 q.length le_rfl]
  simp only [Nat.sub_self, List.getD_cons_zero]
  congr 1
  exact Finset.prod_congr rfl fun i hi =>
    by rw [List.getD_append q [x] 0 i (Finset.mem_range.mp hi)]

lemma pbProb_append_succ (q : List ℚ) (x : ℚ) (k : ℕ) :
    pbProb (q ++ [x]) (k + 1) = pbProb q (k + 1) * (1 - x) + pbProb q k * x := by
  unfold pbProb
  simp only [List.length_append, List.length_singleton]
  rw [Finset.range_succ,
    Finset.powersetCard_succ_insert Finset.not_mem_range_self]
  have hdisj : Disjoint ((Finset.range q.length).powersetCard (k + 1))
      (((Finset.range q.length).powersetCard k).image (insert q.length)) := by
    rw [Finset.disjoint_left]
    intro S hS hS'
    rcases Finset.mem_image.mp hS' with ⟨T, _, hT⟩
    have hsub := (Finset.mem_powersetCard.mp hS).1
    have : q.length ∈ Finset.range q.length := hsub (hT ▸ Finset.mem_insert_self _ _)
    exact Finset.not_mem_range_self this
  rw [Finset.sum_union hdisj]
  have himage : ∀ S ∈ (Finset.range q.length).powersetCard k,
      ∀ T ∈ (Finset.range q.length).powersetCard k,
      insert q.length S = insert q.length T → S = T := by
    intro S hS T hT hST
    have hnS : q.length ∉ S := fun h =>
      Finset.not_mem_range_self ((Finset.mem_powersetCard.mp hS).1 h)
    have hnT : q.length ∉ T := fun h =>
      Finset.not_mem_range_self ((Finset.mem_powersetCard.mp hT).1 h)
    rw [← Finset.erase_insert hnS, hST, Finset.erase_insert hnT]
  rw [Finset.sum_image himage]
  congr 1
  · rw [Finset.sum_mul]
    refine Finset.sum_congr rfl fun S hS => ?_
    obtain ⟨hsub, -⟩ := Finset.mem_powersetCard.mp hS
    have hnS : q.length ∉ S := fun h => Finset.not_mem_range_self (hsub h)
    have h1 : (∏ i ∈ S, (q ++ [x]).getD i 0) = ∏ i ∈ S, q.getD i 0 :=
      Finset.prod_congr rfl fun i hi =>
        List.getD_append q [x] 0 i (Finset.mem_range.mp (hsub hi))
    have h2 : (∏ i ∈ insert q.length (Finset.range q.length) \ S,
        (1 - (q ++ [x]).getD i 0))
        = (1 - x) * ∏ i ∈ Finset.range q.length \ S, (1 - q.getD i 0) := by
      rw [Finset.insert_sdiff_of_not_mem _ hnS,
        Finset.prod_insert (fun h => Finset.not_mem_range_self (Finset.mem_sdiff.mp h).1)]
      rw [List.getD_append_right q [x] 0 q.length le_rfl]
      simp only [Nat.sub_self, List.getD_cons_zero]
      congr 1
      exact Finset.prod_congr rfl fun i hi =>
        by rw [List.getD_append q [x] 0 i (Finset.mem_range.mp (Finset.mem_sdiff.mp hi).1)]
    rw [h1, h2]
    ring
  · rw [Finset.sum_mul]
    refine Finset.sum_congr rfl fun S hS => ?_
    obtain ⟨hsub, -⟩ := Finset.mem_powersetCard.mp hS
    have hnS : q.length ∉ S := fun h => Finset.not_mem_range_self (hsub h)
    have h1 : (∏ i ∈ insert q.length S, (q ++ [x]).getD i 0)
        = x * ∏ i ∈ S, q.getD i 0 := by
      rw [Finset.prod_insert hnS, List.getD_append_right q [x] 0 q.length le_rfl]
      simp only [Nat.sub_self, List.getD_cons_zero]
      congr 1
      exact Finset.prod_congr rfl fun i hi =>
        List.getD_append q [x] 0 i (Finset.mem_range.mp (hsub hi))
    have hcompl : insert q.length (Finset.range q.length) \ insert q.length S
        = Finset.range q.length \ S := by
      rw [Finset.insert_sdiff_of_mem _ (Finset.mem_insert_self _ _)]
      ext i
      simp only [Finset.mem_sdiff, Finset.mem_insert, Finset.mem_range]
      constructor
      · rintro ⟨hi, hns⟩
        exact ⟨hi, fun h => hns (Or.inr h)⟩
      · rintro ⟨hi, hns⟩
        exact ⟨hi, fun h => by
          rcases h with h | h
          · omega
          · exact hns h⟩
    have h2 : (∏ i ∈ insert q.length (Finset.range q.length) \ insert q.length S,
        (1 - (q ++ [x]).getD i 0))
        = ∏ i ∈ Finset.range q.length \ S, (1 - q.getD i 0) := by
      rw [hcompl]
      exact Finset.prod_congr rfl fun i hi =>
        by rw [List.getD_append q [x] 0 i (Finset.mem_range.mp (Finset.mem_sdiff.mp hi).1)]
    rw [h1, h2]
    ring

lemma stepAux_zeros (x : ℚ) (m : ℕ) :
    stepAux x 0 (List.replicate m 0) = List.replicate m 0 := by
  induction m with
  | zero => rfl
  | succ m ih =>
    rw [List.replicate_succ, stepAux, ih]
    norm_num

lemma stepAux_append (x : ℚ) (prev : ℚ) (l₁ l₂ : List ℚ) :
    stepAux x prev (l₁ ++ l₂)
      = stepAux x prev l₁ ++ stepAux x (l₁.getLastD prev) l₂ := by
  induction l₁ generalizing prev with
  | nil => rfl
  | cons p ps ih =>
    rw [List.cons_append, stepAux, stepAux, ih p, List.cons_append,
      List.getLastD_cons]

lemma stepAux_replicate_zero (x prev : ℚ) (m : ℕ) :
    stepAux x prev (List.replicate (m + 1) 0)
      = prev * x :: List.replicate m 0 := by
  rw [List.replicate_succ, stepAux, stepAux_zeros]
  norm_num

lemma stepAux_map_range' (x : ℚ) (f : ℕ → ℚ) (n : ℕ) :
    ∀ j, stepAux x (f j) ((List.range' (j + 1) n).map f)
      = (List.range' (j + 1) n).map (fun k => f k * (1 - x) + f (k - 1) * x) := by
  induction n with
  | zero => intro j; rfl
  | succ n ih =>
    intro j
    rw [List.range'_succ, List.map_cons, stepAux, List.map_cons, ih (j + 1)]
    simp

lemma getLastD_map_range' (f : ℕ → ℚ) (n : ℕ) :
    (((List.range' 1 n).map f).getLastD (f 0)) = f n := by
  cases n with
  | zero => rfl
  | succ m =>
    have : List.range' 1 (m + 1) = List.range' 1 m ++ [1 + m] := by
      simpa using @List.range'_concat 1 1 m
    rw [this, List.map_append, List.map_singleton]
    simp [Nat.add_comm 1 m]

/-- One DP round applied to the exact distribution of `q` (padded with at
least one zero) yields the exact distribution of `q ++ [x]`. -/
lemma stepPB_pbVec (q : List ℚ) (x : ℚ) (m : ℕ) :
    stepPB x (pbVec q ++ List.replicate (m + 1) 0)
      = pbVec (q ++ [x]) ++ List.replicate m 0 := by
  have hq : pbVec q = pbProb q 0 :: (List.range' 1 q.length).map (pbProb q) := by
    unfold pbVec
    rw [List.range_eq_range', List.range'_succ, List.map_cons]
  have hq' : pbVec (q ++ [x])
      = pbProb (q ++ [x]) 0
        :: ((List.range' 1 q.length).map (pbProb (q ++ [x]))
            ++ [pbProb (q ++ [x]) (1 + q.length)]) := by
    unfold pbVec
    rw [List.range_eq_range']
    simp only [List.length_append, List.length_singleton]
    rw [List.range'_succ]
    have hcat : List.range' 1 (q.length + 1) = List.range' 1 q.length ++ [1 + q.length] := by
      simpa using @List.range'_concat 1 1 q.length
    rw [hcat, List.map_cons, List.map_append, List.map_singleton]
  rw [hq, hq', List.cons_append, stepPB, stepAux_append, List.cons_append]
  congr 1
  · exact (pbProb_append_zero q x).symm
  rw [getLastD_map_range', stepAux_replicate_zero]
  have hmid : stepAux x (pbProb q 0) ((List.range' 1 q.length).map (pbProb q))
      = (List.range' 1 q.length).map
          (fun k => pbProb q k * (1 - x) + pbProb q (k - 1) * x) := by
    simpa using stepAux_map_range' x (pbProb q) q.length 0
  rw [hmid]
  have hmap : (List.range' 1 q.length).map
        (fun k => pbProb q k * (1 - x) + pbProb q (k - 1) * x)
      = (List.range' 1 q.length).map (pbProb (q ++ [x])) := by
    refine List.map_congr_left fun k hk => ?_
    rw [List.mem_range'] at hk
    obtain ⟨i, _, rfl⟩ := hk
    have h1 : 1 + 1 * i = i + 1 := by omega
    rw [h1, pbProb_append_succ q x i]
    simp
  rw [hmap]
  have hlast : pbProb (q ++ [x]) (1 + q.length) = pbProb q q.length * x := by
    have h1 : 1 + q.length = q.length + 1 := by omega
    rw [h1, pbProb_append_succ q x q.length, pbProb_of_gt (Nat.lt_succ_self _)]
    ring
  rw [hlast]
  simp

/-- The DP fold over `q` starting from a point mass at 0, padded to the
final vector length plus `m` extra zeros, produces the exact distribution
followed by `m` zeros. -/
lemma foldl_stepPB (q : List ℚ) : ∀ m : ℕ,
    q.foldl (fun v qi => stepPB qi v) (1 :: List.replicate (q.length + m) 0)
      = pbVec q ++ List.replicate m 0 := by
  induction q using List.reverseRecOn with
  | nil =>
    intro m
    simp [pbVec, pbProb_nil_zero, List.range_succ]
  | append_singleton q x ih =>
    intro m
    rw [List.foldl_append]
    have hlen : (q ++ [x]).length + m = q.length + (m + 1) := by
      simp only [List.length_append, List.length_singleton]
      omega
    rw [hlen, ih (m + 1)]
    simp only [List.foldl_cons, List.foldl_nil]
    exact stepPB_pbVec q x m

lemma sum_map_list_range (f : ℕ → ℚ) (n : ℕ) :
    ((List.range n).map f).sum = ∑ k ∈ Finset.range n, f k := by
  induction n with
  | zero => simp
  | succ n ih =>
    rw [List.range_succ, List.map_append, List.sum_append, Finset.sum_range_succ, ih]
    simp

/-- The exact Poisson-binomial probabilities sum to exactly 1 (for every
rational vector `q`: the subset terms sum to `Π (q_i + (1 - q_i)) = 1`). -/
lemma pbVec_sum (q : List ℚ) : (pbVec q).sum = 1 := by
  unfold pbVec
  rw [sum_map_list_range]
  calc ∑ k ∈ Finset.range (q.length + 1), pbProb q k
      = ∑ k ∈ Finset.range (q.length + 1),
          ∑ S ∈ (Finset.range q.length).powerset with S.card = k,
            (∏ i ∈ S, q.getD i 0) * ∏ i ∈ Finset.range q.length \ S, (1 - q.getD i 0) := by
        refine Finset.sum_congr rfl fun k _ => ?_
        unfold pbProb
        rw [Finset.powersetCard_eq_filter]
    _ = ∑ S ∈ (Finset.range q.length).powerset,
          (∏ i ∈ S, q.getD i 0) * ∏ i ∈ Finset.range q.length \ S, (1 - q.getD i 0) :=
        Finset.sum_fiberwise_of_maps_to
          (fun S hS => Finset.mem_range.mpr (Nat.lt_succ_of_le (by
            simpa using Finset.card_le_card (Finset.mem_powerset.mp hS)))) _
    _ = ∏ i ∈ Finset.range q.length, (q.getD i 0 + (1 - q.getD i 0)) :=
        (Finset.prod_add _ _ _).symm
    _ = 1 := by simp

/-- In exact arithmetic the DP of `poisson_binomial_pmf` produces exactly
the vector of subset-sum probabilities: the pre-normalization vector
already sums to 1, so the defensive division by the total divides by 1. -/
theorem poisson_binomial_pmf_eq_pbVec (q : List ℚ) :
    poisson_binomial_pmf q = pbVec q := by
  have hfold : List.foldl (fun v qi => stepPB qi v)
      (1 :: List.replicate q.length 0) q = pbVec q := by
    simpa using foldl_stepPB q 0
  simp only [poisson_binomial_pmf]
  rw [hfold, pbVec_sum]
  norm_num

lemma pbVec_getD {q : List ℚ} {k : ℕ} (hk : k ≤ q.length) :
    (pbVec q).getD k 0 = pbProb q k := by
  unfold pbVec
  have hk' : k < ((List.range (q.length + 1)).map (pbProb q)).length := by
    simpa using Nat.lt_succ_of_le hk
  rw [List.getD_eq_getElem _ _ hk', List.getElem_map, List.getElem_range]

lemma getD_unit {q : List ℚ} (hq : ∀ x ∈ q, 0 ≤ x ∧ x ≤ 1) (i : ℕ) :
    0 ≤ q.getD i 0 ∧ q.getD i 0 ≤ 1 := by
  by_cases hi : i < q.length
  · rw [List.getD_eq_getElem _ _ hi]
    exact hq _ (List.getElem_mem hi)
  · rw [List.getD_eq_default _ _ (le_of_not_lt hi)]
    norm_num

lemma pbProb_nonneg {q : List ℚ} (hq : ∀ x ∈ q, 0 ≤ x ∧ x ≤ 1) (k : ℕ) :
    0 ≤ pbProb q k := by
  unfold pbProb
  refine Finset.sum_nonneg fun S _ => mul_nonneg
    (Finset.prod_nonneg fun i _ => (getD_unit hq i).1)
    (Finset.prod_nonneg fun i _ => by linarith [(getD_unit hq i).2])

lemma prod_map_getD_range (g : ℚ → ℚ) :
    ∀ q : List ℚ, ∏ i ∈ Finset.range q.length, g (q.getD i 0) = (q.map g).prod
  | [] => by simp
  | a :: q => by
    rw [List.length_cons, Finset.prod_range_succ']
    simp only [List.getD_cons_succ, List.getD_cons_zero]
    rw [prod_map_getD_range g q, List.map_cons, List.prod_cons]
    ring

/-- The first entry of the returned PMF is the product of the
no-change probabilities. -/
lemma pmf_head_eq_prod (q : List ℚ) :
    (poisson_binomial_pmf q).getD 0 0 = (q.map (fun x => 1 - x)).prod := by
  rw [poisson_binomial_pmf_eq_pbVec, pbVec_getD (Nat.zero_le _)]
  unfold pbProb
  rw [Finset.powersetCard_zero, Finset.sum_singleton]
  simp only [Finset.prod_empty, one_mul, Finset.sdiff_empty]
  exact prod_map_getD_range _ q

/-- C1 — `poisson_binomial_pmf q` has length `n+1`; its entry `k`
(`0 ≤ k ≤ n`) is the exact Poisson-binomial probability `pbProb q k`
(the sum over all `k`-element index subsets `S` of
`Π_{i∈S} q_i · Π_{i∉S} (1-q_i)`); the vector sums to exactly 1; and for
`n = 0` it is `[1]`. -/
theorem C1_poisson_binomial_pmf_exact (q : List ℚ)
    (hq : ∀ x ∈ q, 0 ≤ x ∧ x ≤ 1) :
    (poisson_binomial_pmf q).length = q.length + 1
    ∧ (∀ k, k ≤ q.length → (poisson_binomial_pmf q).getD k 0 = pbProb q k)
    ∧ (poisson_binomial_pmf q).sum = 1
    ∧ (q = [] → poisson_binomial_pmf q = [1]) := by
  rw [poisson_binomial_pmf_eq_pbVec]
  refine ⟨by simp [pbVec], fun k hk => pbVec_getD hk, pbVec_sum q, ?_⟩
  rintro rfl
  simp [pbVec, List.range_succ, pbProb_nil_zero]

/-- Witness for C1: the vector `[1/2, 1/3]` lies in the unit cube and its
PMF entry at 0 is the exact subset-sum probability. -/
theorem C1_witness :
    (poisson_binomial_pmf [(1 : ℚ)/2, 1/3]).getD 0 0 = pbProb [(1 : ℚ)/2, 1/3] 0
    ∧ (poisson_binomial_pmf [(1 : ℚ)/2, 1/3]).sum = 1 :=
  ⟨((C1_poisson_binomial_pmf_exact [(1 : ℚ)/2, 1/3] (by norm_num)).2.1) 0 (by norm_num),
   (C1_poisson_binomial_pmf_exact [(1 : ℚ)/2, 1/3] (by norm_num)).2.2.1⟩

/-- C10 — every entry of `poisson_binomial_pmf q` lies in `[0,1]` when
every `q` entry lies in `[0,1]`: each entry is a sum of products of
nonnegative factors, and is at most the total mass 1. -/
theorem C10_pmf_entries_in_unit_interval (q : List ℚ)
    (hq : ∀ x ∈ q, 0 ≤ x ∧ x ≤ 1) :
    ∀ p ∈ poisson_binomial_pmf q, 0 ≤ p ∧ p ≤ 1 := by
  rw [poisson_binomial_pmf_eq_pbVec]
  have hnn : ∀ p ∈ pbVec q, 0 ≤ p := by
    intro p hp
    obtain ⟨k, _, rfl⟩ := List.mem_map.mp hp
    exact pbProb_nonneg hq k
  intro p hp
  refine ⟨hnn p hp, ?_⟩
  have := List.single_le_sum hnn p hp
  rwa [pbVec_sum q] at this

/-- Witness for C10: the middle entry of the PMF of `[1/2, 1/3]` lies in
the unit interval. -/
theorem C10_witness :
    0 ≤ (poisson_binomial_pmf [(1 : ℚ)/2, 1/3]).getD 1 0
    ∧ (poisson_binomial_pmf [(1 : ℚ)/2, 1/3]).getD 1 0 ≤ 1 := by
  refine C10_pmf_entries_in_unit_interval [(1 : ℚ)/2, 1/3] (by norm_num) _ ?_
  have hlen : (poisson_binomial_pmf [(1 : ℚ)/2, 1/3]).length = 3 := by
    rw [poisson_binomial_pmf_eq_pbVec]
    simp [pbVec]
  have h1 : (1 : ℕ) < (poisson_binomial_pmf [(1 : ℚ)/2, 1/3]).length := by omega
  rw [List.getD_eq_getElem _ _ h1]
  exact List.getElem_mem h1

/-- C3 — the summary's `pmf_k_nonsilent[0]` equals its
`p_unchanged_protein`; more generally the first entry of
`poisson_binomial_pmf q` equals `Π (1 - q_i)` over the same vector
(empty product = 1). -/
theorem C3_pmf_zero_eq_p_unchanged (seq : List Char) (TR : Mat)
    (roi : Option (ℤ × ℤ)) :
    (summarize seq TR roi).pmf_k_nonsilent.getD 0 0
      = (summarize seq TR roi).p_unchanged_protein
    ∧ ∀ q : List ℚ,
        (poisson_binomial_pmf q).getD 0 0 = (q.map (fun x => 1 - x)).prod := by
  constructor
  · simp only [summarize]
    exact pmf_head_eq_prod _
  · exact pmf_head_eq_prod

/-! ## Lemmas for the summary module -/

/-- Shared helper: an empty CDS when there is no start codon. -/
lemma codons_in_cds_nil_of_no_start {seq : List Char}
    (h : ¬ ∃ i, isStartAt (clean_mrna seq) i) : codons_in_cds seq = [] := by
  unfold codons_in_cds
  rw [findStart_eq, dif_neg h]

/-- Shared helper: no CDS codon is a stop codon. -/
lemma codons_in_cds_no_stop (seq : List Char) :
    ∀ c ∈ codons_in_cds seq, CODON_TO_AA c ≠ AA.stop := by
  intro c hc
  unfold codons_in_cds at hc
  rcases hfs : findStart (clean_mrna seq) with _ | t <;> rw [hfs] at hc
  · cases hc
  · exact takeCodons_no_stop t c hc

/-- With the identity effective matrix, every codon transitions to itself
with probability 1 and to anything else with probability 0. -/
lemma codon_prob_matId (orig tgt : Codon) :
    codon_prob_to_codon orig tgt matId = if orig = tgt then 1 else 0 := by
  obtain ⟨o1, o2, o3⟩ := orig
  obtain ⟨t1, t2, t3⟩ := tgt
  simp only [codon_prob_to_codon, matId, Prod.ext_iff]
  by_cases h1 : o1 = t1 <;> by_cases h2 : o2 = t2 <;> by_cases h3 : o3 = t3 <;>
    simp [h1, h2, h3]

lemma every_codon_mem_allCodons (c : Codon) : c ∈ allCodons := by
  obtain ⟨a, b, d⟩ := c
  cases a <;> cases b <;> cases d <;> decide

lemma allCodons_nodup : allCodons.Nodup := by decide

/-- Sum of the indicator of `c` over a duplicate-free list containing
`c`. -/
lemma sum_indicator_eq_one {l : List Codon} (hnd : l.Nodup) {c : Codon}
    (hc : c ∈ l) :
    (l.map (fun t => if c = t then (1 : ℚ) else 0)).sum = 1 := by
  induction l with
  | nil => cases hc
  | cons a l ih =>
    rcases List.mem_cons.mp hc with rfl | hmem
    · have hnc : c ∉ l := (List.nodup_cons.mp hnd).1
      have hz : (l.map (fun t => if c = t then (1 : ℚ) else 0)).sum = 0 := by
        refine List.sum_eq_zero fun x hx => ?_
        obtain ⟨t, ht, rfl⟩ := List.mem_map.mp hx
        rw [if_neg]
        rintro rfl
        exact hnc ht
      simp [hz]
    · have hna : c ≠ a := by
        rintro rfl
        exact (List.nodup_cons.mp hnd).1 hmem
      rw [List.map_cons, List.sum_cons, if_neg hna,
        ih (List.nodup_cons.mp hnd).2 hmem]
      ring

/-- Every non-stop codon keeps its amino acid with probability exactly 1
under the identity matrix. -/
lemma prob_same_amino_acid_matId (c : Codon) (hc : CODON_TO_AA c ≠ AA.stop) :
    prob_same_amino_acid c matId = 1 := by
  unfold prob_same_amino_acid
  rw [if_neg hc]
  have hmap : (allCodons.filter (fun t => CODON_TO_AA t = CODON_TO_AA c)).map
        (fun t => codon_prob_to_codon c t matId)
      = (allCodons.filter (fun t => CODON_TO_AA t = CODON_TO_AA c)).map
        (fun t => if c = t then (1 : ℚ) else 0) :=
    List.map_congr_left fun t _ => codon_prob_matId c t
  rw [hmap]
  refine sum_indicator_eq_one (allCodons_nodup.filter _) ?_
  rw [List.mem_filter]
  exact ⟨every_codon_mem_allCodons c, by simp⟩

lemma getD_replicate_zero (n i : ℕ) :
    (List.replicate n (0 : ℚ)).getD i 0 = 0 := by
  by_cases h : i < n
  · rw [List.getD_eq_getElem _ _ (by simpa using h)]
    simp
  · rw [List.getD_eq_default]
    simpa using le_of_not_lt h

lemma pbProb_replicate_zero_pos (n k : ℕ) (hk : k ≠ 0) :
    pbProb (List.replicate n (0 : ℚ)) k = 0 := by
  unfold pbProb
  refine Finset.sum_eq_zero fun S hS => ?_
  obtain ⟨-, hcard⟩ := Finset.mem_powersetCard.mp hS
  have hne : S.Nonempty := Finset.card_pos.mp (by omega)
  obtain ⟨i, hi⟩ := hne
  rw [Finset.prod_eq_zero hi (getD_replicate_zero n i), zero_mul]

/-- The DP output on an all-zero risk vector is the point mass at 0. -/
lemma pmf_all_zero (n : ℕ) :
    poisson_binomial_pmf (List.replicate n (0 : ℚ)) = 1 :: List.replicate n 0 := by
  rw [poisson_binomial_pmf_eq_pbVec]
  unfold pbVec
  simp only [List.length_replicate]
  rw [List.range_eq_range', List.range'_succ, List.map_cons]
  congr 1
  · unfold pbProb
    rw [Finset.powersetCard_zero, Finset.sum_singleton]
    simp only [Finset.prod_empty, one_mul, Finset.sdiff_empty]
    refine Finset.prod_eq_one fun i _ => ?_
    rw [getD_replicate_zero]
    norm_num
  · refine List.eq_replicate_iff.mpr ⟨by simp, fun b hb => ?_⟩
    obtain ⟨k, hk, rfl⟩ := List.mem_map.mp hb
    rw [List.mem_range'] at hk
    obtain ⟨i, _, rfl⟩ := hk
    exact pbProb_replicate_zero_pos n _ (by omega)

lemma pmf_nil : poisson_binomial_pmf ([] : List ℚ) = [1] := by
  simpa using pmf_all_zero 0

/-- With the identity effective matrix, every per-codon nonsilent risk in
the summary is 0. -/
lemma q_matId (seq : List Char) :
    ((codons_in_cds seq).map (fun c => prob_same_amino_acid c matId)).map
      (fun p => 1 - p) = List.replicate (codons_in_cds seq).length 0 := by
  refine List.eq_replicate_iff.mpr ⟨by simp, fun b hb => ?_⟩
  obtain ⟨p, hp, rfl⟩ := List.mem_map.mp hb
  obtain ⟨c, hc, rfl⟩ := List.mem_map.mp hp
  rw [prob_same_amino_acid_matId c (codons_in_cds_no_stop seq c hc)]
  norm_num

/-- C5 — `matrix_power_per_round M 0` is the identity matrix; with the
identity as effective matrix every non-stop codon keeps its amino acid
with probability 1; and for every input sequence `summarize` reports
`p_unchanged_protein = 1` and the point-mass PMF `[1, 0, ..., 0]` of
length `n_codons + 1`. -/
theorem C5_identity_effective_matrix (M : Mat) (seq : List Char)
    (roi : Option (ℤ × ℤ)) :
    matrix_power_per_round M 0 = Except.ok matId
    ∧ (∀ c : Codon, CODON_TO_AA c ≠ AA.stop → prob_same_amino_acid c matId = 1)
    ∧ (summarize seq matId roi).p_unchanged_protein = 1
    ∧ (summarize seq matId roi).pmf_k_nonsilent
        = 1 :: List.replicate (summarize seq matId roi).n_codons 0 := by
  refine ⟨rfl, fun c hc => prob_same_amino_acid_matId c hc, ?_, ?_⟩
  · simp only [summarize]
    rw [q_matId, List.map_replicate, List.prod_replicate]
    norm_num
  · simp only [summarize]
    rw [q_matId, pmf_all_zero]

/-- Witness for C5: the start codon itself keeps its amino acid with
probability 1 under the identity matrix. -/
theorem C5_witness : prob_same_amino_acid (A, U, G) matId = 1 :=
  (C5_identity_effective_matrix matId "AUGGCAUAA".data none).2.1 (A, U, G)
    (by decide)

/-- C7 — when the normalized sequence has no start codon, `summarize`
completes without error and reports the neutral results `n_codons = 0`,
`p_unchanged_protein = 1`, `pmf_k_nonsilent = [1]`, and
`p_premature_stop = 0`; and whenever the mapped codon span is degenerate
(`end_codon < start_codon`, which includes every region when the CDS is
empty), the ROI probability is 0 rather than an error. -/
theorem C7_degenerate_inputs (seq : List Char) (TR : Mat)
    (roi : Option (ℤ × ℤ)) (a b : ℤ) :
    ((¬ ∃ i, isStartAt (clean_mrna seq) i) →
      (summarize seq TR roi).n_codons = 0
      ∧ (summarize seq TR roi).p_unchanged_protein = 1
      ∧ (summarize seq TR roi).pmf_k_nonsilent = [1]
      ∧ (summarize seq TR roi).p_premature_stop = 0)
    ∧ (roiEndC a b (codons_in_cds seq).length < roiStartC a →
      (summarize seq TR (some (a, b))).roi
        = some ((roiStartC a, roiEndC a b (codons_in_cds seq).length), 0)) := by
  constructor
  · intro h
    have hc : codons_in_cds seq = [] := codons_in_cds_nil_of_no_start h
    simp only [summarize, hc]
    refine ⟨rfl, by simp, ?_, by norm_num⟩
    simp [pmf_nil]
  · intro hlt
    simp only [summarize]
    rw [if_neg (not_le.mpr hlt)]

/-- Witness for C7: a start-codon-free sequence gives the neutral
summary, and an ROI mapping to an inverted span gives probability 0. -/
theorem C7_witness :
    ((summarize "CCC".data matId none).n_codons = 0
      ∧ (summarize "CCC".data matId none).p_unchanged_protein = 1
      ∧ (summarize "CCC".data matId none).pmf_k_nonsilent = [1]
      ∧ (summarize "CCC".data matId none).p_premature_stop = 0)
    ∧ (summarize "AUGUUUUAA".data matId (some (7, 7))).roi
        = some ((roiStartC 7,
            roiEndC 7 7 (codons_in_cds "AUGUUUUAA".data).length), 0) :=
  ⟨(C7_degenerate_inputs "CCC".data matId none 1 1).1 (by decide),
   (C7_degenerate_inputs "AUGUUUUAA".data matId none 7 7).2 (by decide)⟩

/-- C8 — an ROI `(1, b)` covering the whole CDS (at least one codon,
`b ≥ 1`, `b div 3 ≥ n - 1`) yields `p_any_nonsilent` equal to
`1 - p_unchanged_protein` of the same call, exactly. -/
theorem C8_full_cds_roi (seq : List Char) (TR : Mat) (b : ℤ)
    (hn : 1 ≤ (codons_in_cds seq).length)
    (hb : 1 ≤ b)
    (hb3 : ((codons_in_cds seq).length : ℤ) - 1 ≤ b.fdiv 3) :
    (summarize seq TR (some (1, b))).roi
      = some ((roiStartC 1, roiEndC 1 b (codons_in_cds seq).length),
          1 - (summarize seq TR (some (1, b))).p_unchanged_protein) := by
  have hstart : roiStartC 1 = 0 := by decide
  have hend : roiEndC 1 b (codons_in_cds seq).length
      = ((codons_in_cds seq).length : ℤ) - 1 := by
    unfold roiEndC
    rw [max_eq_right (le_refl (1 : ℤ)), max_eq_right hb, min_eq_right hb3]
  simp only [summarize]
  rw [hstart, hend, if_pos (by omega)]
  have htoNat : (((codons_in_cds seq).length : ℤ) - 1 + 1 - 0).toNat
      = (codons_in_cds seq).length := by omega
  rw [Int.toNat_zero, List.drop_zero, htoNat,
    List.take_of_length_le (by simp)]

/-- Witness for C8: full-CDS ROI `(1, 6)` on a two-codon CDS. -/
theorem C8_witness :
    (summarize "AUGGCAUAA".data matId (some (1, 6))).roi
      = some ((roiStartC 1,
          roiEndC 1 6 (codons_in_cds "AUGGCAUAA".data).length),
          1 - (summarize "AUGGCAUAA".data matId (some (1, 6))).p_unchanged_protein) :=
  C8_full_cds_roi "AUGGCAUAA".data matId 6 (by decide) (by decide) (by decide)

/-! ## Lemmas for claim C6 -/

lemma matId_nonneg : ∀ i j, 0 ≤ matId i j := by
  intro i j
  by_cases h : i = j <;> simp [matId, h]

lemma matMul_nonneg {P Q : Mat} (hP : ∀ i j, 0 ≤ P i j)
    (hQ : ∀ i j, 0 ≤ Q i j) : ∀ i j, 0 ≤ matMul P Q i j := by
  intro i j
  unfold matMul sumNuc
  dsimp only
  have h1 := mul_nonneg (hP i A) (hQ A j)
  have h2 := mul_nonneg (hP i C) (hQ C j)
  have h3 := mul_nonneg (hP i G) (hQ G j)
  have h4 := mul_nonneg (hP i U) (hQ U j)
  linarith

lemma matPowNat_nonneg {M : Mat} (hM : ∀ i j, 0 ≤ M i j) (n : ℕ) :
    ∀ i j, 0 ≤ matPowNat M n i j := by
  induction n with
  | zero => exact matId_nonneg
  | succ n ih => exact matMul_nonneg ih hM

/-- Any matrix produced by `matrix_power_per_round` from an entrywise
nonnegative matrix with unit row sums is itself entrywise nonnegative
with unit row sums. -/
lemma effective_matrix_props {M : Mat} {R : ℤ} {N : Mat}
    (hpos : ∀ i j, 0 ≤ M i j) (hrow : ∀ k, rowSum M k = 1)
    (hN : matrix_power_per_round M R = .ok N) :
    (∀ i j, 0 ≤ N i j) ∧ ∀ k, rowSum N k = 1 := by
  unfold matrix_power_per_round at hN
  by_cases h : R < 0
  · rw [if_pos h] at hN
    cases hN
  · rw [if_neg h] at hN
    by_cases h0 : R = 0
    · rw [if_pos h0] at hN
      cases hN
      exact ⟨matId_nonneg, rowSum_matId⟩
    · rw [if_neg h0] at hN
      cases hN
      exact ⟨matPowNat_nonneg hpos _, rowSum_matPowNat M hrow _⟩

/-- The transition probabilities out of a codon sum, over all 64 target
codons, to the product of the three relevant row sums. -/
lemma sum_allCodons_codon_prob (o : Codon) (TR : Mat) :
    (allCodons.map (fun t => codon_prob_to_codon o t TR)).sum
      = rowSum TR o.1 * rowSum TR o.2.1 * rowSum TR o.2.2 := by
  obtain ⟨o1, o2, o3⟩ := o
  simp [allCodons, allNucs, codon_prob_to_codon, rowSum, sumNuc]
  ring

lemma sublist_sum_le {l₁ l₂ : List ℚ} (h : l₁.Sublist l₂)
    (hn : ∀ x ∈ l₂, 0 ≤ x) : l₁.sum ≤ l₂.sum := by
  induction h with
  | slnil => exact le_rfl
  | cons a h ih =>
    rw [List.sum_cons]
    have ha := hn a (List.mem_cons_self a _)
    have := ih fun x hx => hn x (List.mem_cons_of_mem a hx)
    linarith
  | cons₂ a h ih =>
    rw [List.sum_cons, List.sum_cons]
    have := ih fun x hx => hn x (List.mem_cons_of_mem a hx)
    linarith

lemma codon_prob_nonneg (o t : Codon) {TR : Mat} (hTR : ∀ i j, 0 ≤ TR i j) :
    0 ≤ codon_prob_to_codon o t TR :=
  mul_nonneg (mul_nonneg (hTR _ _) (hTR _ _)) (hTR _ _)

/-- A partial sum of transition probabilities over any sublist of codons
lies in `[0, 1]` for a genuinely stochastic matrix. -/
lemma filter_sum_unit (o : Codon) {TR : Mat} (p : Codon → Bool)
    (hTR : ∀ i j, 0 ≤ TR i j) (hrow : ∀ k, rowSum TR k = 1) :
    0 ≤ ((allCodons.filter p).map (fun t => codon_prob_to_codon o t TR)).sum
    ∧ ((allCodons.filter p).map (fun t => codon_prob_to_codon o t TR)).sum ≤ 1 := by
  have hnn : ∀ x ∈ allCodons.map (fun t => codon_prob_to_codon o t TR), 0 ≤ x := by
    intro x hx
    obtain ⟨t, _, rfl⟩ := List.mem_map.mp hx
    exact codon_prob_nonneg o t hTR
  constructor
  · refine List.sum_nonneg fun x hx => ?_
    obtain ⟨t, _, rfl⟩ := List.mem_map.mp hx
    exact codon_prob_nonneg o t hTR
  · have hsub : ((allCodons.filter p).map (fun t => codon_prob_to_codon o t TR)).Sublist
        (allCodons.map (fun t => codon_prob_to_codon o t TR)) :=
      (List.filter_sublist allCodons).map _
    have := sublist_sum_le hsub hnn
    rw [sum_allCodons_codon_prob, hrow, hrow, hrow] at this
    linarith

lemma prob_same_amino_acid_unit (c : Codon) {TR : Mat}
    (hTR : ∀ i j, 0 ≤ TR i j) (hrow : ∀ k, rowSum TR k = 1) :
    0 ≤ prob_same_amino_acid c TR ∧ prob_same_amino_acid c TR ≤ 1 := by
  unfold prob_same_amino_acid
  by_cases h : CODON_TO_AA c = AA.stop
  · rw [if_pos h]
    norm_num
  · rw [if_neg h]
    exact filter_sum_unit c _ hTR hrow

lemma prob_becomes_stop_unit (c : Codon) {TR : Mat}
    (hTR : ∀ i j, 0 ≤ TR i j) (hrow : ∀ k, rowSum TR k = 1) :
    0 ≤ prob_becomes_stop c TR ∧ prob_becomes_stop c TR ≤ 1 := by
  unfold prob_becomes_stop
  exact filter_sum_unit c _ hTR hrow

lemma prod_unit {l : List ℚ} (h : ∀ x ∈ l, 0 ≤ x ∧ x ≤ 1) :
    0 ≤ l.prod ∧ l.prod ≤ 1 := by
  induction l with
  | nil => norm_num
  | cons a l ih =>
    obtain ⟨ha0, ha1⟩ := h a (List.mem_cons_self a _)
    obtain ⟨hp0, hp1⟩ := ih fun x hx => h x (List.mem_cons_of_mem a hx)
    rw [List.prod_cons]
    exact ⟨mul_nonneg ha0 hp0, mul_le_one₀ ha1 hp0 hp1⟩

/-- C6 (amended) — for every sequence, every optional ROI, every
entrywise-nonnegative matrix whose rows sum exactly to 1 (a genuinely
stochastic matrix), and every matrix produced from it by
`matrix_power_per_round`, the summary's `p_unchanged_protein` and
`p_premature_stop` lie in `[0, 1]`.  (The row-sum-only validation of
`load_bias_matrix_csv` is not sufficient: see `C6_counterexample`.) -/
theorem C6_probabilities_in_unit_interval (seq : List Char)
    (roi : Option (ℤ × ℤ)) (M : Mat) (R : ℤ) (N : Mat)
    (hpos : ∀ i j, 0 ≤ M i j) (hrow : ∀ k, rowSum M k = 1)
    (hN : matrix_power_per_round M R = .ok N) :
    (0 ≤ (summarize seq N roi).p_unchanged_protein
      ∧ (summarize seq N roi).p_unchanged_protein ≤ 1)
    ∧ (0 ≤ (summarize seq N roi).p_premature_stop
      ∧ (summarize seq N roi).p_premature_stop ≤ 1) := by
  obtain ⟨hNpos, hNrow⟩ := effective_matrix_props hpos hrow hN
  simp only [summarize]
  constructor
  · refine prod_unit fun x hx => ?_
    rw [List.map_map, List.map_map] at hx
    obtain ⟨c, _, rfl⟩ := List.mem_map.mp hx
    simp only [Function.comp_apply]
    obtain ⟨h0, h1⟩ := prob_same_amino_acid_unit c hNpos hNrow
    constructor <;> linarith
  · have hprod : 0 ≤ (((codons_in_cds seq).map
        (fun c => prob_becomes_stop c N)).map (fun s => 1 - s)).prod
        ∧ (((codons_in_cds seq).map
        (fun c => prob_becomes_stop c N)).map (fun s => 1 - s)).prod ≤ 1 := by
      refine prod_unit fun x hx => ?_
      rw [List.map_map] at hx
      obtain ⟨c, _, rfl⟩ := List.mem_map.mp hx
      simp only [Function.comp_apply]
      obtain ⟨h0, h1⟩ := prob_becomes_stop_unit c hNpos hNrow
      constructor <;> linarith
    constructor <;> linarith [hprod.1, hprod.2]

/-- Witness for the amended C6: the identity matrix is genuinely
stochastic and after one round yields probabilities in `[0, 1]`. -/
theorem C6_witness :
    0 ≤ (summarize "AUG".data (matPowNat matId 1) none).p_unchanged_protein
    ∧ (summarize "AUG".data (matPowNat matId 1) none).p_unchanged_protein ≤ 1 :=
  (C6_probabilities_in_unit_interval "AUG".data none matId 1 (matPowNat matId 1)
    matId_nonneg rowSum_matId rfl).1

/-- Counterexample to C6 as stated: `M6` passes the row-sum validation of
`load_bias_matrix_csv` (every row sums to exactly 1), yet after one round
`summarize` reports `p_unchanged_protein = 2 ∉ [0, 1]` on the sequence
AUG, because the validation never checks entrywise nonnegativity. -/
theorem C6_counterexample :
    validRowSums M6
    ∧ matrix_power_per_round M6 1 = Except.ok (matPowNat M6 1)
    ∧ (summarize "AUG".data (matPowNat M6 1) none).p_unchanged_protein = 2
    ∧ ¬((summarize "AUG".data (matPowNat M6 1) none).p_unchanged_protein ≤ 1) := by
  have hval : validRowSums M6 := by
    intro i
    cases i
    all_goals simp [rowSum, sumNuc, M6]
    all_goals norm_num
  have hsame : prob_same_amino_acid (A, U, G) (matPowNat M6 1) = 2 := by
    unfold prob_same_amino_acid
    rw [if_neg (by decide)]
    have hfilt : allCodons.filter
        (fun t => CODON_TO_AA t = CODON_TO_AA (A, U, G)) = [(A, U, G)] := by decide
    rw [hfilt]
    simp [codon_prob_to_codon, matPowNat, matMul, matId, sumNuc, M6]
  have hp : (summarize "AUG".data (matPowNat M6 1) none).p_unchanged_protein = 2 := by
    simp only [summarize]
    rw [show codons_in_cds "AUG".data = [(A, U, G)] from by decide]
    simp [hsame]
  exact ⟨hval, rfl, hp, by rw [hp]; norm_num⟩
